import Mathlib

/-!
Verification of `create_standalone_project.py`.

Strings are modelled as `List Char` (Python `str`).  Each definition below is a
direct translation of a function or code region of the source script; the
relevant source construct is named in the doc comment.
-/

/-- Python whitespace (`str.isspace` members used by `strip` and `\s`). -/
def pyIsSpace (c : Char) : Bool :=
  c = ' ' || c = '\t' || c = '\n' || c = '\r' || c = '\x0b' || c = '\x0c'

/-- Python `s.split(c)` for a one-character separator: keeps empty pieces,
`''.split(c) = ['']`. -/
def splitOnChar (c : Char) : List Char → List (List Char)
  | [] => [[]]
  | x :: xs =>
    let r := splitOnChar c xs
    if x = c then [] :: r
    else
      match r with
      | [] => [[x]]
      | h :: t => (x :: h) :: t

/-- Python `c.join(pieces)` for a one-character separator. -/
def joinChar (c : Char) : List (List Char) → List Char
  | [] => []
  | [x] => x
  | x :: y :: r => x ++ c :: joinChar c (y :: r)

/-- `original_rel_path_xml.replace('\\', '/')` (single-character replace). -/
def slashify (s : List Char) : List Char :=
  s.map (fun c => if c = '\\' then '/' else c)

/-- POSIX `os.path.basename`: everything after the last `'/'`. -/
def posixBasename (s : List Char) : List Char :=
  (s.reverse.takeWhile (fun c => !(c == '/'))).reverse

/-- Python `line.strip()`: remove leading and trailing whitespace. -/
def pyStrip (s : List Char) : List Char :=
  ((s.dropWhile pyIsSpace).reverse.dropWhile pyIsSpace).reverse

/-- The configuration constant `SDK_FILES_SUBDIR = "sdk_files"`. -/
def sdkSubdir : List Char := "sdk_files".toList

/-- The relative-path result of `create_target_path(output_dir, sdk_subdir,
original_rel_path_xml)` (its `target_rel_path_unix` component; the absolute
destination path only re-joins the same segments with the OS separator). -/
def create_target_path (subdir ref : List Char) : List Char :=
  let path_parts := splitOnChar '/' (slashify ref)
  let rel := path_parts.filter (fun p => !(p == "..".toList))
  if rel = [] then subdir ++ '/' :: posixBasename ref
  else subdir ++ '/' :: joinChar '/' rel

/-- The SDK-classification heuristic `path.startswith('../../')`. -/
def isSdkRef (ref : List Char) : Bool :=
  "../../".toList.isPrefixOf ref

/-- The scheduled-replacement key/value text `f'{attr}="{value}"'`. -/
def mkPattern (attr v : List Char) : List Char :=
  attr ++ '=' :: '"' :: (v ++ ['"'])

/-- Case-insensitive prefix test, the matching discipline of
`re.subn(pattern, ..., flags=re.IGNORECASE)` on a `re.escape`d (hence literal)
pattern, for the ASCII text the script handles. -/
def ciPfx : List Char → List Char → Bool
  | [], _ => true
  | _ :: _, [] => false
  | a :: as, b :: bs => (a.toLower == b.toLower) && ciPfx as bs

/-- Fuel-indexed worker for `re.subn(re.escape(pat), repl, s, flags=IGNORECASE)`:
replace every leftmost non-overlapping case-insensitive occurrence.  Fuel
`s.length` always suffices. -/
def subCIAux (pat repl : List Char) : Nat → List Char → List Char
  | _, [] => []
  | 0, s => s
  | n + 1, x :: xs =>
    if ciPfx pat (x :: xs) && !pat.isEmpty then
      repl ++ subCIAux pat repl n (List.drop pat.length (x :: xs))
    else
      x :: subCIAux pat repl n xs

/-- `re.subn(re.escape(pat), repl, s, flags=re.IGNORECASE)` — the substitution
used for every scheduled mapping entry (source line 346). -/
def re_subn_ci (pat repl s : List Char) : List Char :=
  subCIAux pat repl s.length s

/-- Does `pat` occur case-insensitively anywhere in the text? -/
def occursCI (pat : List Char) : List Char → Bool
  | [] => pat.isEmpty
  | x :: xs => ciPfx pat (x :: xs) || occursCI pat xs

/-- Fuel-indexed worker for Python `s.replace(pat, repl)` (case-sensitive,
leftmost, non-overlapping). -/
def repAux (pat repl : List Char) : Nat → List Char → List Char
  | _, [] => []
  | 0, s => s
  | n + 1, x :: xs =>
    if pat.isPrefixOf (x :: xs) && !pat.isEmpty then
      repl ++ repAux pat repl n (List.drop pat.length (x :: xs))
    else
      x :: repAux pat repl n xs

/-- Python `s.replace(pat, repl)` — used for the final generic SDK path
replacement (source line 360). -/
def str_replace (pat repl s : List Char) : List Char :=
  repAux pat repl s.length s

/-- Does `pat` occur (case-sensitively) anywhere in the text? -/
def occursB (pat : List Char) : List Char → Bool
  | [] => pat.isEmpty
  | x :: xs => pat.isPrefixOf (x :: xs) || occursB pat xs

/-- Stable insertion step for Python
`sorted(items, key=lambda item: len(item[0]), reverse=True)`. -/
def insertByLenDesc (x : List Char × List Char) :
    List (List Char × List Char) → List (List Char × List Char)
  | [] => [x]
  | y :: ys =>
    if y.1.length ≤ x.1.length then x :: y :: ys
    else y :: insertByLenDesc x ys

/-- `sorted(paths_to_replace.items(), key=lambda item: len(item[0]),
reverse=True)` (source line 334): stable descending sort by key length. -/
def sortByLenDesc : List (List Char × List Char) → List (List Char × List Char)
  | [] => []
  | x :: xs => insertByLenDesc x (sortByLenDesc xs)

/-- The replacement loop of lines 336-351: apply each sorted entry with
`re.subn(..., flags=IGNORECASE)` (a zero-match `re.subn` returns the text
unchanged, so the `num_subs > 0` guard does not change the content). -/
def applyReplacements (mapping : List (List Char × List Char))
    (content : List Char) : List Char :=
  (sortByLenDesc mapping).foldl (fun acc pr => re_subn_ci pr.1 pr.2 acc) content

/-- `generic_sdk_prefix = "../../../../../../"` (source line 357). -/
def genericSdkPfx : List Char := "../../../../../../".toList

/-- `new_sdk_prefix = f"{SDK_FILES_SUBDIR}/"` (source line 358). -/
def newSdkPfx : List Char := "sdk_files/".toList

/-- The full content transformation of the Descriptor Rewriter (lines
329-365): length-sorted targeted substitutions followed by the final generic
SDK prefix replacement.  When `replacement_count = 0` the original file is
copied instead of written, but in that case this function is the identity, so
the written descriptor content is always `processContent mapping content`. -/
def processContent (mapping : List (List Char × List Char))
    (content : List Char) : List Char :=
  str_replace genericSdkPfx newSdkPfx (applyReplacements mapping content)

/-- Per-entry emission of the include-directories loop (lines 163-209).
`isdir` abstracts `os.path.isdir(resolve_path(original_proj_dir, inc))`,
indexed by the XML path text.  Returns the entries appended to
`new_includes_list` for this input entry. -/
def includeEmit (isdir : List Char → Bool) (inc : List Char) :
    List (List Char) :=
  if inc = [] then []
  else if inc = "../../../config".toList then []
  else if isSdkRef inc then
    if isdir inc then [create_target_path sdkSubdir inc] else [inc]
  else if inc = "../config".toList then ["config".toList]
  else [inc]

/-- Per-entry contribution to `needs_include_update` (lines 163-209). -/
def includeFlag (isdir : List Char → Bool) (inc : List Char) : Bool :=
  if inc = [] then false
  else if inc = "../../../config".toList then true
  else if isSdkRef inc then
    if isdir inc then !(create_target_path sdkSubdir inc == inc) else false
  else if inc = "../config".toList then !("config".toList == inc)
  else false

/-- `new_includes_list` accumulated by the loop over
`original_includes_str.split(';')`. -/
def newIncludeList (isdir : List Char → Bool) :
    List (List Char) → List (List Char)
  | [] => []
  | e :: es => includeEmit isdir e ++ newIncludeList isdir es

/-- Final value of `needs_include_update` after the loop. -/
def needsIncludeUpdate (isdir : List Char → Bool) : List (List Char) → Bool
  | [] => false
  | e :: es => includeFlag isdir e || needsIncludeUpdate isdir es

/-- `re.match(r'^SDK_ROOT\s*:=\s*\.\./\.\./\.\./\.\./\.\./\.\.', line)`
(source line 425): anchored at the line start. -/
def matchSdkRootLegacy (line : List Char) : Bool :=
  "SDK_ROOT".toList.isPrefixOf line &&
    (let r1 := (line.drop 8).dropWhile pyIsSpace
     ":=".toList.isPrefixOf r1 &&
       "../../../../../..".toList.isPrefixOf ((r1.drop 2).dropWhile pyIsSpace))

/-- `new_proj_dir_line = 'PROJ_DIR := ./\n'` (source line 423). -/
def newProjDirLine : List Char := "PROJ_DIR := ./\n".toList

/-- `new_sdk_root_definition` (source line 424). -/
def newSdkRootLine : List Char := "SDK_ROOT := $(PROJ_DIR)/sdk_files\n".toList

/-- `target_cflags_line` (source line 426). -/
def targetCflagsLine : List Char :=
  "CFLAGS += -fno-builtin -fshort-enums".toList

/-- The two CFLAGS lines appended after a line whose stripped text equals
`target_cflags_line` (lines 446-449). -/
def cflagsAfter (line : List Char) : List (List Char) :=
  if pyStrip line == targetCflagsLine then
    ["CFLAGS += -Wall -Werror\n".toList, "CFLAGS += -Wno-array-bounds\n".toList]
  else []

/-- The first Makefile rewrite loop (lines 428-450), carrying the
`sdk_root_updated` and `proj_dir_defined` flags. -/
def pass1Go : List (List Char) → Bool → Bool → List (List Char)
  | [], _, _ => []
  | line :: rest, updated, defined =>
    let isM := matchSdkRootLegacy line && !updated
    (if isM then (if !defined then [newProjDirLine] else []) ++ [newSdkRootLine]
     else [line]) ++
      cflagsAfter line ++ pass1Go rest (updated || isM) (defined || isM)

/-- Insert an element at a position (Python `list.insert`). -/
def insAt (n : Nat) (a : α) : List α → List α
  | [] => [a]
  | x :: xs =>
    match n with
    | 0 => a :: x :: xs
    | m + 1 => x :: insAt m a xs

/-- The not-found fallback of lines 453-464: insert the two definitions after
the first `PROJECT_NAME` line (index + 1) or at position 0. -/
def insertFallback (out : List (List Char)) : List (List Char) :=
  let pos :=
    match out.findIdx? (fun l => "PROJECT_NAME".toList.isPrefixOf l) with
    | some i => i + 1
    | none => 0
  insAt (pos + 1) newSdkRootLine (insAt pos newProjDirLine out)

/-- The whole first Makefile rewrite (lines 417-464).  The final
`sdk_root_updated` flag is true exactly when some line matches the legacy
pattern (the flag is set at the first match and only ever or-ed). -/
def pass1 (lines : List (List Char)) : List (List Char) :=
  let out := pass1Go lines false false
  if lines.any matchSdkRootLegacy then out else insertFallback out

/-- `line.strip().startswith('PROJ_DIR := ../../..')` (source line 543). -/
def legacyProjDirB (line : List Char) : Bool :=
  "PROJ_DIR := ../../..".toList.isPrefixOf (pyStrip line)

/-- The second Makefile pass (lines 535-552): delete every line whose stripped
text starts with the legacy `PROJ_DIR` definition. -/
def cleanupPass (lines : List (List Char)) : List (List Char) :=
  lines.filter (fun l => !legacyProjDirB l)

/-- Lines carried through verbatim by `pass1Go` once `sdk_root_updated` is
true (each original line, plus any CFLAGS insertion after it). -/
def passthrough : List (List Char) → List (List Char)
  | [] => []
  | l :: ls => l :: (cflagsAfter l ++ passthrough ls)

/-- Case-insensitive equality of ASCII texts: equal after `Char.toLower`. -/
def ciEqB (a b : List Char) : Bool :=
  a.map Char.toLower == b.map Char.toLower

/-- Filesystem effects of the script up to the project-file read, in program
order (lines 81-109 of `main` plus the `__main__` input check). -/
inductive FsEffect where
  | mkdirOutput
  | mkdirSdkFilesSubdir
  | copyMakefileCommon
  | readProjectFile
  deriving DecidableEq

/-- Effect trace and exit status of the script up to (and including) the
project-file read.  `__main__` exits 1 before calling `main` when the input is
not a file; otherwise `main` creates the output directory and the
`sdk_files` subdirectory and copies `Makefile.common` before opening the
project file, and exits 1 if that read raises.  `none` means the run
continues past the read. -/
def runScript (inputIsFile inputReadable : Bool) :
    List FsEffect × Option Nat :=
  if !inputIsFile then ([], some 1)
  else
    ([FsEffect.mkdirOutput, FsEffect.mkdirSdkFilesSubdir,
      FsEffect.copyMakefileCommon, FsEffect.readProjectFile],
     if !inputReadable then some 1 else none)

/-! ### General lemmas about the case-insensitive substitution -/

theorem ciPfx_length : ∀ (p s : List Char), ciPfx p s = true → p.length ≤ s.length
  | [], _, _ => Nat.zero_le _
  | _ :: _, [], h => by simp [ciPfx] at h
  | a :: as, b :: bs, h => by
    simp only [ciPfx, Bool.and_eq_true] at h
    simpa [List.length_cons] using Nat.succ_le_succ (ciPfx_length as bs h.2)

theorem ciPfx_get : ∀ (p s : List Char), ciPfx p s = true →
    ∀ (i : Nat) (h1 : i < p.length) (h2 : i < s.length),
      (p.get ⟨i, h1⟩).toLower = (s.get ⟨i, h2⟩).toLower
  | _ :: _, [], h, _, _, h2 => by simp at h2
  | a :: as, b :: bs, h, 0, _, _ => by
    simp only [ciPfx, Bool.and_eq_true, beq_iff_eq] at h
    simpa using h.1
  | a :: as, b :: bs, h, i + 1, h1, h2 => by
    simp only [ciPfx, Bool.and_eq_true] at h
    simpa using ciPfx_get as bs h.2 i (by simpa using h1) (by simpa using h2)

theorem ciPfx_refl : ∀ (p : List Char), ciPfx p p = true
  | [] => rfl
  | a :: as => by simp [ciPfx, ciPfx_refl as]

theorem ciPfx_of_map_toLower_eq : ∀ (a b : List Char),
    a.map Char.toLower = b.map Char.toLower → ciPfx a b = true
  | [], [], _ => rfl
  | [], _ :: _, h => by simp at h
  | _ :: _, [], h => by simp at h
  | a :: as, b :: bs, h => by
    simp only [List.map_cons, List.cons.injEq] at h
    simp [ciPfx, h.1, ciPfx_of_map_toLower_eq as bs h.2]

theorem subCIAux_of_not_occursCI (pat repl : List Char) :
    ∀ (n : Nat) (s : List Char), occursCI pat s = false →
      subCIAux pat repl n s = s
  | n, [], _ => by cases n <;> simp [subCIAux]
  | 0, _ :: _, _ => rfl
  | n + 1, x :: xs, h => by
    simp only [occursCI, Bool.or_eq_false_iff] at h
    simp [subCIAux, h.1, subCIAux_of_not_occursCI pat repl n xs h.2]

theorem repAux_of_not_occursB (pat repl : List Char) :
    ∀ (n : Nat) (s : List Char), occursB pat s = false →
      repAux pat repl n s = s
  | n, [], _ => by cases n <;> simp [repAux]
  | 0, _ :: _, _ => rfl
  | n + 1, x :: xs, h => by
    simp only [occursB, Bool.or_eq_false_iff] at h
    simp [repAux, h.1, repAux_of_not_occursB pat repl n xs h.2]

theorem re_subn_ci_entire (pat repl s : List Char) (hne : pat ≠ [])
    (hpfx : ciPfx pat s = true) (hlen : s.length = pat.length) :
    re_subn_ci pat repl s = repl := by
  cases s with
  | nil =>
    exact absurd (List.length_eq_zero.mp hlen.symm) hne
  | cons x xs =>
    have hempty : pat.isEmpty = false := by
      cases pat with
      | nil => exact absurd rfl hne
      | cons _ _ => rfl
    show subCIAux pat repl (x :: xs).length (x :: xs) = repl
    rw [List.length_cons]
    rw [subCIAux, if_pos (by simp [hpfx, hempty])]
    rw [← hlen, List.drop_length]
    simp [subCIAux]

theorem occursCI_exists (pat : List Char) :
    ∀ (s : List Char), occursCI pat s = true →
      ∃ j, ciPfx pat (s.drop j) = true
  | [], h => by
    refine ⟨0, ?_⟩
    simp only [occursCI, List.isEmpty_iff] at h
    simp [h, ciPfx]
  | x :: xs, h => by
    simp only [occursCI, Bool.or_eq_true] at h
    rcases h with h | h
    · exact ⟨0, h⟩
    · obtain ⟨j, hj⟩ := occursCI_exists pat xs h
      exact ⟨j + 1, by simpa using hj⟩

theorem occursB_exists (pat : List Char) :
    ∀ (s : List Char), occursB pat s = true →
      ∃ j, pat.isPrefixOf (s.drop j) = true
  | [], h => by
    refine ⟨0, ?_⟩
    simp only [occursB, List.isEmpty_iff] at h
    simp [h, List.isPrefixOf]
  | x :: xs, h => by
    simp only [occursB, Bool.or_eq_true] at h
    rcases h with h | h
    · exact ⟨0, h⟩
    · obtain ⟨j, hj⟩ := occursB_exists pat xs h
      exact ⟨j + 1, by simpa using hj⟩

theorem repAux_nil (pat repl : List Char) (n : Nat) :
    repAux pat repl n [] = [] := by
  cases n <;> simp [repAux]

theorem occursB_eq_false_of_ctx (p0 : Char) (pr c : List Char)
    (hc : ∀ j, j < c.length → ¬ ((p0 :: pr) <+: c.drop j)) :
    occursB (p0 :: pr) c = false := by
  by_contra hcon
  have hocc : occursB (p0 :: pr) c = true := by
    revert hcon; cases occursB (p0 :: pr) c <;> simp
  obtain ⟨j, hj⟩ := occursB_exists _ _ hocc
  have hj' := List.isPrefixOf_iff_prefix.mp hj
  have hjlt : j < c.length := by
    by_contra hge
    rw [List.drop_eq_nil_of_le (Nat.le_of_not_lt hge)] at hj'
    obtain ⟨t, ht⟩ := hj'
    simp at ht
  exact hc j hjlt hj'

theorem repAux_no_occur (p0 r0 : Char) (pr rr : List Char)
    (hp : p0 ∉ r0 :: rr) (hr : r0 ∉ p0 :: pr) :
    ∀ (n : Nat) (s c : List Char),
      s.length ≤ n →
      (∀ j, j < c.length → ¬ ((p0 :: pr) <+: (c.drop j ++ s))) →
      occursB (p0 :: pr) (c ++ repAux (p0 :: pr) (r0 :: rr) n s) = false := by
  intro n
  induction n with
  | zero =>
    intro s c hs hc
    have hs0 : s = [] := List.length_eq_zero.mp (Nat.le_zero.mp hs)
    subst hs0
    rw [repAux_nil, List.append_nil]
    exact occursB_eq_false_of_ctx p0 pr c (fun j hj => by
      have := hc j hj; rwa [List.append_nil] at this)
  | succ n IH =>
    intro s c hs hc
    cases s with
    | nil =>
      rw [repAux_nil, List.append_nil]
      exact occursB_eq_false_of_ctx p0 pr c (fun j hj => by
        have := hc j hj; rwa [List.append_nil] at this)
    | cons x xs =>
      by_cases hm : (p0 :: pr).isPrefixOf (x :: xs) = true
      · simp only [repAux]
        rw [if_pos (by simp [hm])]
        obtain ⟨t, ht⟩ := List.isPrefixOf_iff_prefix.mp hm
        have hdrop : List.drop (p0 :: pr).length (x :: xs) = t := by
          rw [← ht, List.drop_left]
        rw [hdrop, ← List.append_assoc]
        refine IH t (c ++ r0 :: rr) ?_ ?_
        · have hlen : (p0 :: pr).length + t.length = (x :: xs).length := by
            rw [← ht, List.length_append]
          simp only [List.length_cons] at hlen hs
          omega
        · intro j hj hpfx
          rw [List.length_append] at hj
          rcases Nat.lt_or_ge j c.length with hjc | hjc
          · rw [List.drop_append_of_le_length (Nat.le_of_lt hjc),
              List.append_assoc] at hpfx
            rcases le_or_lt (p0 :: pr).length (c.drop j).length with hle | hlt
            · apply hc j hjc
              have hpc : (p0 :: pr) <+: c.drop j := by
                rw [List.prefix_iff_eq_take] at hpfx ⊢
                rwa [List.take_append_of_le_length hle] at hpfx
              exact hpc.trans (List.prefix_append _ _)
            · obtain ⟨u, hu⟩ := hpfx
              have hdrop2 := congrArg (List.drop (c.drop j).length) hu
              rw [List.drop_left,
                List.drop_append_of_le_length (Nat.le_of_lt hlt)] at hdrop2
              cases hdp : List.drop (c.drop j).length (p0 :: pr) with
              | nil =>
                rw [List.drop_eq_nil_iff] at hdp
                omega
              | cons a as' =>
                rw [hdp] at hdrop2
                simp only [List.cons_append, List.cons.injEq] at hdrop2
                apply hr
                have ha : a ∈ (p0 :: pr) :=
                  List.drop_subset _ _ (hdp ▸ List.mem_cons_self a as')
                rwa [hdrop2.1] at ha
          · have hj2 : j - c.length < (r0 :: rr).length := by
              simp only [List.length_cons] at hj ⊢; omega
            have hdropped : (c ++ r0 :: rr).drop j =
                (r0 :: rr).drop (j - c.length) := by
              have hje : j = c.length + (j - c.length) := by omega
              conv_lhs => rw [hje]
              rw [List.drop_append]
            rw [hdropped] at hpfx
            cases hdp : (r0 :: rr).drop (j - c.length) with
            | nil =>
              rw [List.drop_eq_nil_iff] at hdp; omega
            | cons b bs' =>
              rw [hdp, List.cons_append, List.cons_prefix_cons] at hpfx
              apply hp
              have hb : b ∈ (r0 :: rr) :=
                List.drop_subset _ _ (hdp ▸ List.mem_cons_self b bs')
              rwa [← hpfx.1] at hb
      · have hmf : (p0 :: pr).isPrefixOf (x :: xs) = false := by
          revert hm; cases (p0 :: pr).isPrefixOf (x :: xs) <;> simp
        simp only [repAux]
        rw [if_neg (by simp [hmf])]
        have hassoc : c ++ x :: repAux (p0 :: pr) (r0 :: rr) n xs =
            (c ++ [x]) ++ repAux (p0 :: pr) (r0 :: rr) n xs := by simp
        rw [hassoc]
        refine IH xs (c ++ [x]) ?_ ?_
        · simp only [List.length_cons] at hs; omega
        · intro j hj hpfx
          rw [List.length_append, List.length_cons, List.length_nil] at hj
          rcases Nat.lt_or_ge j c.length with hjc | hjc
          · apply hc j hjc
            rw [List.drop_append_of_le_length (Nat.le_of_lt hjc),
              List.append_assoc] at hpfx
            simpa using hpfx
          · have hj0 : j = c.length := by omega
            subst hj0
            rw [List.drop_left] at hpfx
            simp only [List.singleton_append] at hpfx
            rw [← List.isPrefixOf_iff_prefix] at hpfx
            exact absurd hpfx (by simp [hmf])

/-- C5: for every descriptor text and every Relocation Mapping, after the
targeted substitutions and the final catch-all substitution of
`'../../../../../../'` by `'sdk_files/'`, the resulting descriptor content
contains zero occurrences of the six-level upward-traversal prefix. -/
theorem C5_generic_fully_removed (mapping : List (List Char × List Char))
    (content : List Char) :
    occursB genericSdkPfx (processContent mapping content) = false := by
  have hgp : genericSdkPfx = '.' :: "./../../../../../".toList := by decide
  have hnp : newSdkPfx = 's' :: "dk_files/".toList := by decide
  unfold processContent str_replace
  rw [hgp, hnp]
  have h := repAux_no_occur '.' 's' "./../../../../../".toList "dk_files/".toList
    (by decide) (by decide)
    (applyReplacements mapping content).length (applyReplacements mapping content)
    [] (Nat.le_refl _) (by intro j hj; simp at hj)
  simpa using h

/-- C4 counterexample: with an empty Relocation Mapping the Descriptor
Rewriter is not the identity: the unconditional catch-all substitution still
rewrites a descriptor containing the six-level upward-traversal prefix, so the
output is not byte-identical to the input. -/
theorem C4_counterexample :
    processContent [] ("a ../../../../../../b".toList) ≠
      "a ../../../../../../b".toList ∧
    processContent [] ("a ../../../../../../b".toList) =
      "a sdk_files/b".toList := by
  constructor <;> decide

/-- C4 (amended): if the Relocation Mapping is empty and the descriptor
contains no occurrence of the six-level upward-traversal prefix, the output
descriptor content is byte-identical to the input. -/
theorem C4_empty_mapping_byte_identical (content : List Char)
    (h : occursB genericSdkPfx content = false) :
    processContent [] content = content := by
  unfold processContent applyReplacements str_replace
  simp only [sortByLenDesc, List.foldl_nil]
  exact repAux_of_not_occursB _ _ _ _ h

theorem C4_witness :
    occursB genericSdkPfx ("abc".toList) = false ∧
    processContent [] ("abc".toList) = "abc".toList :=
  ⟨by decide, C4_empty_mapping_byte_identical _ (by decide)⟩

/-- C1 counterexample: the scheduled entry `file_name="abc"` rewrites the
occurrence `file_name="ABC"`, whose value differs from the scheduled original
value only in letter case — the value part is matched case-insensitively too,
because `re.IGNORECASE` applies to the whole pattern. -/
theorem C1_counterexample :
    ciEqB "abc".toList "ABC".toList = true ∧
    "abc".toList ≠ "ABC".toList ∧
    re_subn_ci (mkPattern "file_name".toList "abc".toList)
        (mkPattern "file_name".toList "sdk_files/abc".toList)
        (mkPattern "file_name".toList "ABC".toList) =
      mkPattern "file_name".toList "sdk_files/abc".toList ∧
    re_subn_ci (mkPattern "file_name".toList "abc".toList)
        (mkPattern "file_name".toList "sdk_files/abc".toList)
        (mkPattern "file_name".toList "ABC".toList) ≠
      mkPattern "file_name".toList "ABC".toList := by
  refine ⟨by decide, by decide, by decide, by decide⟩

/-- C1 (amended): the whole `attribute="value"` pattern is matched
case-insensitively, value included: any occurrence whose text agrees with the
scheduled `attribute="original value"` text up to letter case is rewritten to
the scheduled replacement. -/
theorem C1_whole_pattern_case_insensitive (attr v w repl : List Char)
    (hci : ciEqB v w = true) :
    re_subn_ci (mkPattern attr v) repl (mkPattern attr w) = repl := by
  have hv : v.map Char.toLower = w.map Char.toLower := by
    simpa [ciEqB] using hci
  have hmap : (mkPattern attr v).map Char.toLower =
      (mkPattern attr w).map Char.toLower := by
    simp [mkPattern, hv]
  have hlen : (mkPattern attr w).length = (mkPattern attr v).length := by
    have h2 := congrArg List.length hmap
    simpa using h2.symm
  refine re_subn_ci_entire _ _ _ ?_ (ciPfx_of_map_toLower_eq _ _ hmap) hlen
  simp [mkPattern]

theorem C1_witness :
    ciEqB "abc".toList "ABC".toList = true ∧
    re_subn_ci (mkPattern "a".toList "abc".toList) "Q".toList
      (mkPattern "a".toList "ABC".toList) = "Q".toList :=
  ⟨by decide, C1_whole_pattern_case_insensitive "a".toList "abc".toList
    "ABC".toList "Q".toList (by decide)⟩

/-! ### Lemmas about splitting and joining path segments -/

theorem splitOnChar_ne_nil (c : Char) : ∀ (s : List Char), splitOnChar c s ≠ []
  | [] => by simp [splitOnChar]
  | x :: xs => by
    simp only [splitOnChar]
    split
    · simp
    · cases hr : splitOnChar c xs with
      | nil => simp
      | cons h t => simp [hr]

theorem splitOnChar_not_mem (c : Char) :
    ∀ (s : List Char) (x : List Char), x ∈ splitOnChar c s → c ∉ x
  | [], x, hx => by
    simp only [splitOnChar, List.mem_singleton] at hx
    simp [hx]
  | y :: ys, x, hx => by
    simp only [splitOnChar] at hx
    by_cases hy : y = c
    · rw [if_pos hy] at hx
      rcases List.mem_cons.mp hx with h | h
      · simp [h]
      · exact splitOnChar_not_mem c ys x h
    · rw [if_neg hy] at hx
      cases hr : splitOnChar c ys with
      | nil => exact absurd hr (splitOnChar_ne_nil c ys)
      | cons h t =>
        rw [hr] at hx
        rcases List.mem_cons.mp hx with h1 | h1
        · subst h1
          intro hcmem
          rcases List.mem_cons.mp hcmem with h2 | h2
          · exact hy h2.symm
          · exact splitOnChar_not_mem c ys h (by rw [hr]; exact List.mem_cons_self _ _) h2
        · exact splitOnChar_not_mem c ys x (by rw [hr]; exact List.mem_cons.mpr (Or.inr h1))

theorem splitOnChar_append_cons (c : Char) (a b : List Char) (ha : c ∉ a) :
    splitOnChar c (a ++ c :: b) = a :: splitOnChar c b := by
  induction a with
  | nil => simp [splitOnChar]
  | cons x a' IH =>
    have hx : ¬ x = c := fun h => ha (by simp [h])
    have ha' : c ∉ a' := fun h => ha (List.mem_cons.mpr (Or.inr h))
    simp only [List.cons_append, splitOnChar, if_neg hx]
    rw [show a'.append (c :: b) = a' ++ c :: b from rfl, IH ha']

theorem splitOnChar_single (c : Char) (a : List Char) (ha : c ∉ a) :
    splitOnChar c a = [a] := by
  induction a with
  | nil => simp [splitOnChar]
  | cons x a' IH =>
    have hx : ¬ x = c := fun h => ha (by simp [h])
    have ha' : c ∉ a' := fun h => ha (List.mem_cons.mpr (Or.inr h))
    simp only [splitOnChar, if_neg hx, IH ha']

theorem splitOnChar_joinChar (c : Char) :
    ∀ (xs : List (List Char)), xs ≠ [] → (∀ x ∈ xs, c ∉ x) →
      splitOnChar c (joinChar c xs) = xs
  | [], h, _ => absurd rfl h
  | [x], _, hall => by
    simp only [joinChar]
    exact splitOnChar_single c x (hall x (List.mem_singleton_self x))
  | x :: y :: r, _, hall => by
    simp only [joinChar]
    rw [splitOnChar_append_cons c x _ (hall x (List.mem_cons_self _ _))]
    rw [splitOnChar_joinChar c (y :: r) (by simp)
      (fun z hz => hall z (List.mem_cons.mpr (Or.inr hz)))]

/-- C2 counterexample: the SDK-classified reference `../../..` (all of whose
segments are upward traversals) hits the fallback of `create_target_path` and
is mapped to `sdk_files/..`, which contains the upward-traversal segment
`..`. -/
theorem C2_counterexample :
    isSdkRef "../../..".toList = true ∧
    create_target_path sdkSubdir "../../..".toList = "sdk_files/..".toList ∧
    "..".toList ∈
      splitOnChar '/' (create_target_path sdkSubdir "../../..".toList) := by
  refine ⟨by decide, by decide, by decide⟩

/-- C2 (amended): for every SDK-classified reference the new relative
reference always begins with `sdk_files/`; whenever stripping the
upward-traversal segments leaves at least one segment, the result contains no
`..` segment.  (In the fallback case the relocated name is the reference's
final path component, which is itself `..`.) -/
theorem C2_sdk_target_shape (ref : List Char) (h : isSdkRef ref = true) :
    "sdk_files/".toList.isPrefixOf (create_target_path sdkSubdir ref) = true ∧
    ((splitOnChar '/' (slashify ref)).filter
        (fun p => !(p == "..".toList)) ≠ [] →
      "..".toList ∉ splitOnChar '/' (create_target_path sdkSubdir ref)) := by
  have key : ∀ X : List Char, sdkSubdir ++ ['/'] <+: sdkSubdir ++ '/' :: X := by
    intro X
    have h2 : sdkSubdir ++ '/' :: X = (sdkSubdir ++ ['/']) ++ X := by simp
    rw [h2]
    exact List.prefix_append _ _
  constructor
  · rw [List.isPrefixOf_iff_prefix]
    have hs : "sdk_files/".toList = sdkSubdir ++ ['/'] := by decide
    rw [hs]
    simp only [create_target_path]
    split
    · exact key _
    · exact key _
  · intro hrel hmem
    simp only [create_target_path] at hmem
    rw [if_neg hrel] at hmem
    rw [splitOnChar_append_cons '/' sdkSubdir _ (by decide)] at hmem
    rw [splitOnChar_joinChar '/' _ hrel
      (fun x hx =>
        splitOnChar_not_mem '/' (slashify ref) x (List.mem_of_mem_filter hx))]
      at hmem
    rcases List.mem_cons.mp hmem with h1 | h1
    · exact absurd h1 (by decide)
    · have h2 := List.mem_filter.mp h1
      simp at h2

theorem C2_witness :
    "sdk_files/".toList.isPrefixOf
      (create_target_path sdkSubdir
        "../../components/boards/boards.c".toList) = true ∧
    "..".toList ∉ splitOnChar '/'
      (create_target_path sdkSubdir
        "../../components/boards/boards.c".toList) :=
  ⟨(C2_sdk_target_shape _ (by decide)).1,
   (C2_sdk_target_shape _ (by decide)).2 (by decide)⟩

/-! ### Quote positions in scheduled patterns -/

theorem toLower_eq_quote {c : Char} (h : c.toLower = '"') : c = '"' := by
  have hdef : c.toLower =
      if c.toNat ≥ 65 ∧ c.toNat ≤ 90 then Char.ofNat (c.toNat + 32) else c := rfl
  rw [hdef] at h
  split at h
  · exfalso
    rename_i hcond
    have hv : (Char.toNat c + 32).isValidChar := Or.inl (by omega)
    rw [Char.ofNat, dif_pos hv] at h
    have h2 := congrArg Char.toNat h
    have h3 : Char.toNat '"' = 34 := by decide
    rw [h3] at h2
    simp only [Char.ofNatAux, Char.toNat, UInt32.toNat, BitVec.toNat_ofNatLt] at h2
    simp only [Char.toNat, UInt32.toNat] at hcond
    omega
  · exact h

theorem mkPattern_length (attr v : List Char) :
    (mkPattern attr v).length = attr.length + v.length + 3 := by
  simp only [mkPattern, List.length_append, List.length_cons, List.length_nil]
  omega

theorem mkPattern_ne_nil (attr v : List Char) : mkPattern attr v ≠ [] := by
  simp [mkPattern]

theorem tail_get_quote (v : List Char) (hv : '"' ∉ v) :
    ∀ (m : Nat) (hm : m < ('=' :: '"' :: (v ++ ['"'])).length),
      ((('=' :: '"' :: (v ++ ['"'])).get ⟨m, hm⟩ = '"') ↔
        (m = 1 ∨ m = v.length + 2))
  | 0, hm => by
    constructor
    · intro h
      have h0 : ('=' : Char) = '"' := h
      exact absurd h0 (by decide)
    · intro h
      exact absurd h (by omega)
  | 1, _ => iff_of_true rfl (Or.inl rfl)
  | m + 2, hm => by
    have hm2 : m < (v ++ ['"']).length := by
      simp only [List.length_cons] at hm
      simpa using Nat.lt_of_succ_lt_succ (Nat.lt_of_succ_lt_succ hm)
    show ((v ++ ['"']).get ⟨m, hm2⟩ = '"') ↔ _
    rcases Nat.lt_or_ge m v.length with h2 | h2
    · have e : (v ++ ['"']).get ⟨m, hm2⟩ = v.get ⟨m, h2⟩ := by
        rw [List.get_eq_getElem, List.get_eq_getElem]
        exact List.getElem_append_left h2
      rw [e]
      constructor
      · intro hq
        exact absurd (hq ▸ List.get_mem v m h2) hv
      · intro hq
        exact absurd hq (by omega)
    · have hmv : m = v.length := by
        have hlt : m < v.length + 1 := by simpa using hm2
        omega
      subst hmv
      have e : (v ++ ['"']).get ⟨v.length, hm2⟩ = '"' := by
        rw [List.get_eq_getElem, List.getElem_append_right (Nat.le_refl _)]
        simp
      rw [e]
      exact iff_of_true rfl (Or.inr rfl)

theorem mkPattern_quote_pos (attr v : List Char) (ha : '"' ∉ attr)
    (hv : '"' ∉ v) (k : Nat) (hk : k < (mkPattern attr v).length) :
    ((mkPattern attr v).get ⟨k, hk⟩ = '"') ↔
      (k = attr.length + 1 ∨ k = attr.length + v.length + 2) := by
  have hk3 : k < attr.length + v.length + 3 := by
    rwa [mkPattern_length] at hk
  rcases Nat.lt_or_ge k attr.length with h1 | h1
  · have e : (mkPattern attr v).get ⟨k, hk⟩ = attr.get ⟨k, h1⟩ := by
      simp only [mkPattern]
      rw [List.get_eq_getElem, List.get_eq_getElem]
      exact List.getElem_append_left h1
    rw [e]
    constructor
    · intro hq
      exact absurd (hq ▸ List.get_mem attr k h1) ha
    · intro hq
      exact absurd hq (by omega)
  · have hT : k - attr.length < ('=' :: '"' :: (v ++ ['"'])).length := by
      simp only [List.length_cons, List.length_append, List.length_nil]
      omega
    have e : (mkPattern attr v).get ⟨k, hk⟩ =
        ('=' :: '"' :: (v ++ ['"'])).get ⟨k - attr.length, hT⟩ := by
      simp only [mkPattern]
      rw [List.get_eq_getElem, List.get_eq_getElem]
      exact List.getElem_append_right h1
    rw [e, tail_get_quote v hv (k - attr.length) hT]
    omega

/-- The shorter scheduled pattern never matches (even case-insensitively)
anywhere inside the longer scheduled pattern: the closing quote forces an
exact full-value match. -/
theorem mkPattern_not_ciInfix (attr v1 v2 : List Char) (ha : '"' ∉ attr)
    (h1 : '"' ∉ v1) (h2 : '"' ∉ v2) (hlen : v1.length < v2.length) :
    occursCI (mkPattern attr v1) (mkPattern attr v2) = false := by
  by_contra hcon
  have hocc : occursCI (mkPattern attr v1) (mkPattern attr v2) = true := by
    revert hcon
    cases occursCI (mkPattern attr v1) (mkPattern attr v2) <;> simp
  obtain ⟨j, hj⟩ := occursCI_exists _ _ hocc
  have hlen1 := ciPfx_length _ _ hj
  rw [List.length_drop, mkPattern_length, mkPattern_length] at hlen1
  have hjb : j + (attr.length + v1.length + 3) ≤ attr.length + v2.length + 3 := by
    omega
  -- first quote of the shorter pattern
  have hq1p : attr.length + 1 < (mkPattern attr v1).length := by
    rw [mkPattern_length]; omega
  have hq1s : attr.length + 1 < ((mkPattern attr v2).drop j).length := by
    rw [List.length_drop, mkPattern_length]; omega
  have e1 := ciPfx_get _ _ hj (attr.length + 1) hq1p hq1s
  -- last quote of the shorter pattern
  have hq2p : attr.length + v1.length + 2 < (mkPattern attr v1).length := by
    rw [mkPattern_length]; omega
  have hq2s : attr.length + v1.length + 2 < ((mkPattern attr v2).drop j).length := by
    rw [List.length_drop, mkPattern_length]; omega
  have e2 := ciPfx_get _ _ hj (attr.length + v1.length + 2) hq2p hq2s
  -- evaluate the pattern side of both equations
  have p1q1 : (mkPattern attr v1).get ⟨attr.length + 1, hq1p⟩ = '"' :=
    (mkPattern_quote_pos attr v1 ha h1 _ hq1p).mpr (Or.inl rfl)
  have p1q2 : (mkPattern attr v1).get ⟨attr.length + v1.length + 2, hq2p⟩ = '"' :=
    (mkPattern_quote_pos attr v1 ha h1 _ hq2p).mpr (Or.inr rfl)
  rw [p1q1] at e1
  rw [p1q2] at e2
  -- transfer to positions of the longer pattern
  have hd1 : j + (attr.length + 1) < (mkPattern attr v2).length := by
    rw [mkPattern_length]; omega
  have hd2 : j + (attr.length + v1.length + 2) < (mkPattern attr v2).length := by
    rw [mkPattern_length]; omega
  have g1 : ((mkPattern attr v2).drop j).get ⟨attr.length + 1, hq1s⟩ =
      (mkPattern attr v2).get ⟨j + (attr.length + 1), hd1⟩ := by
    rw [List.get_eq_getElem, List.get_eq_getElem]
    exact List.getElem_drop _
  have g2 : ((mkPattern attr v2).drop j).get ⟨attr.length + v1.length + 2, hq2s⟩ =
      (mkPattern attr v2).get ⟨j + (attr.length + v1.length + 2), hd2⟩ := by
    rw [List.get_eq_getElem, List.get_eq_getElem]
    exact List.getElem_drop _
  rw [g1] at e1
  rw [g2] at e2
  have q1 : (mkPattern attr v2).get ⟨j + (attr.length + 1), hd1⟩ = '"' :=
    toLower_eq_quote e1.symm
  have q2 : (mkPattern attr v2).get ⟨j + (attr.length + v1.length + 2), hd2⟩ = '"' :=
    toLower_eq_quote e2.symm
  have r1 := (mkPattern_quote_pos attr v2 ha h2 _ hd1).mp q1
  have r2 := (mkPattern_quote_pos attr v2 ha h2 _ hd2).mp q2
  omega

/-! ### The length-descending sort -/

theorem mem_insertByLenDesc (x a : List Char × List Char) :
    ∀ (l : List (List Char × List Char)),
      a ∈ insertByLenDesc x l ↔ a = x ∨ a ∈ l
  | [] => by simp [insertByLenDesc]
  | y :: ys => by
    simp only [insertByLenDesc]
    split
    · simp [List.mem_cons]
    · rw [List.mem_cons, mem_insertByLenDesc x a ys, List.mem_cons]
      tauto

theorem pairwise_insertByLenDesc (x : List Char × List Char) :
    ∀ (l : List (List Char × List Char)),
      l.Pairwise (fun a b => b.1.length ≤ a.1.length) →
      (insertByLenDesc x l).Pairwise (fun a b => b.1.length ≤ a.1.length)
  | [], _ => by simp [insertByLenDesc]
  | y :: ys, h => by
    simp only [insertByLenDesc]
    rw [List.pairwise_cons] at h
    split
    next hc =>
      rw [List.pairwise_cons]
      refine ⟨?_, List.pairwise_cons.mpr h⟩
      intro z hz
      rcases List.mem_cons.mp hz with rfl | hz2
      · exact hc
      · exact le_trans (h.1 z hz2) hc
    next hc =>
      rw [List.pairwise_cons]
      refine ⟨?_, pairwise_insertByLenDesc x ys h.2⟩
      intro z hz
      rcases (mem_insertByLenDesc x z ys).mp hz with rfl | hz2
      · exact le_of_not_le hc
      · exact h.1 z hz2

theorem pairwise_sortByLenDesc :
    ∀ (l : List (List Char × List Char)),
      (sortByLenDesc l).Pairwise (fun a b => b.1.length ≤ a.1.length)
  | [] => by simp [sortByLenDesc]
  | x :: xs => pairwise_insertByLenDesc x _ (pairwise_sortByLenDesc xs)

/-- C3: the Descriptor Rewriter sorts scheduled entries by descending length
of the original `attribute="value"` text, and for two entries on the same
attribute whose original values are quote-free with the first strictly
shorter (in particular when it is a strict substring of the second): the sort
puts the longer entry first, the shorter entry's pattern never matches — even
case-insensitively — anywhere inside the longer entry's text, applying the
shorter entry to the longer entry's text leaves it unchanged, and applying
both scheduled entries to an occurrence of the longer text rewrites it to
exactly its own target (provided the shorter pattern does not occur in that
target, as with distinct path targets). -/
theorem C3_substring_entries_safe (attr v1 v2 t1 t2 : List Char)
    (ha : '"' ∉ attr) (h1 : '"' ∉ v1) (h2 : '"' ∉ v2)
    (hlen : v1.length < v2.length)
    (ht2 : occursCI (mkPattern attr v1) t2 = false) :
    (∀ m : List (List Char × List Char),
      (sortByLenDesc m).Pairwise (fun a b => b.1.length ≤ a.1.length)) ∧
    sortByLenDesc [(mkPattern attr v1, t1), (mkPattern attr v2, t2)] =
      [(mkPattern attr v2, t2), (mkPattern attr v1, t1)] ∧
    occursCI (mkPattern attr v1) (mkPattern attr v2) = false ∧
    re_subn_ci (mkPattern attr v1) t1 (mkPattern attr v2) = mkPattern attr v2 ∧
    applyReplacements [(mkPattern attr v1, t1), (mkPattern attr v2, t2)]
      (mkPattern attr v2) = t2 := by
  have hsort : sortByLenDesc [(mkPattern attr v1, t1), (mkPattern attr v2, t2)] =
      [(mkPattern attr v2, t2), (mkPattern attr v1, t1)] := by
    have hlt : ¬ ((mkPattern attr v2).length ≤ (mkPattern attr v1).length) := by
      rw [mkPattern_length, mkPattern_length]
      omega
    simp only [sortByLenDesc, insertByLenDesc]
    rw [if_neg hlt]
  have hinfix := mkPattern_not_ciInfix attr v1 v2 ha h1 h2 hlen
  refine ⟨pairwise_sortByLenDesc, hsort, hinfix, ?_, ?_⟩
  · unfold re_subn_ci
    exact subCIAux_of_not_occursCI _ _ _ _ hinfix
  · unfold applyReplacements
    rw [hsort]
    simp only [List.foldl_cons, List.foldl_nil]
    rw [re_subn_ci_entire _ _ _ (mkPattern_ne_nil attr v2) (ciPfx_refl _) rfl]
    unfold re_subn_ci
    exact subCIAux_of_not_occursCI _ _ _ _ ht2

theorem C3_witness :
    occursCI (mkPattern "a".toList "x".toList)
      (mkPattern "a".toList "xy".toList) = false ∧
    applyReplacements
      [(mkPattern "a".toList "x".toList, mkPattern "a".toList "X1".toList),
       (mkPattern "a".toList "xy".toList,
        mkPattern "a".toList "sdk_files/xy".toList)]
      (mkPattern "a".toList "xy".toList) =
      mkPattern "a".toList "sdk_files/xy".toList :=
  ⟨(C3_substring_entries_safe "a".toList "x".toList "xy".toList
      (mkPattern "a".toList "X1".toList)
      (mkPattern "a".toList "sdk_files/xy".toList)
      (by decide) (by decide) (by decide) (by decide) (by decide)).2.2.1,
   (C3_substring_entries_safe "a".toList "x".toList "xy".toList
      (mkPattern "a".toList "X1".toList)
      (mkPattern "a".toList "sdk_files/xy".toList)
      (by decide) (by decide) (by decide) (by decide) (by decide)).2.2.2.2⟩

/-! ### Include-directories processing -/

/-- C7: a Common configuration carrying
`c_user_include_directories="../../../sdk/inc;../config;."` (with the SDK
include directory present on disk) is rescheduled so the attribute value
becomes `"sdk_files/sdk/inc;config;."`: the SDK entry is relocated under the
relocation subdirectory, `../config` becomes `config`, `.` is unchanged, the
order is preserved, the update is scheduled, and applying the scheduled entry
with the Descriptor Rewriter rewrites the attribute text accordingly. -/
theorem C7_include_directories_scenario (isdir : List Char → Bool)
    (h : isdir "../../../sdk/inc".toList = true) :
    joinChar ';' (newIncludeList isdir
        (splitOnChar ';' "../../../sdk/inc;../config;.".toList)) =
      "sdk_files/sdk/inc;config;.".toList ∧
    needsIncludeUpdate isdir
      (splitOnChar ';' "../../../sdk/inc;../config;.".toList) = true ∧
    processContent
      [(mkPattern "c_user_include_directories".toList
          "../../../sdk/inc;../config;.".toList,
        mkPattern "c_user_include_directories".toList
          "sdk_files/sdk/inc;config;.".toList)]
      (mkPattern "c_user_include_directories".toList
        "../../../sdk/inc;../config;.".toList) =
      mkPattern "c_user_include_directories".toList
        "sdk_files/sdk/inc;config;.".toList := by
  have hsplit : splitOnChar ';' "../../../sdk/inc;../config;.".toList =
      ["../../../sdk/inc".toList, "../config".toList, ".".toList] := by decide
  have e1 : includeEmit isdir "../../../sdk/inc".toList =
      ["sdk_files/sdk/inc".toList] := by
    unfold includeEmit
    rw [if_neg (by decide), if_neg (by decide), if_pos (by decide), if_pos h]
    decide
  have e2 : includeEmit isdir "../config".toList = ["config".toList] := by
    unfold includeEmit
    rw [if_neg (by decide), if_neg (by decide), if_neg (by decide),
      if_pos (by decide)]
  have e3 : includeEmit isdir ".".toList = [".".toList] := by
    unfold includeEmit
    rw [if_neg (by decide), if_neg (by decide), if_neg (by decide),
      if_neg (by decide)]
  have f1 : includeFlag isdir "../../../sdk/inc".toList = true := by
    unfold includeFlag
    rw [if_neg (by decide), if_neg (by decide), if_pos (by decide), if_pos h]
    decide
  refine ⟨?_, ?_, by decide⟩
  · rw [hsplit]
    simp only [newIncludeList]
    rw [e1, e2, e3]
    decide
  · rw [hsplit]
    simp only [needsIncludeUpdate]
    rw [f1]
    simp

theorem C7_witness :
    joinChar ';' (newIncludeList (fun _ => true)
        (splitOnChar ';' "../../../sdk/inc;../config;.".toList)) =
      "sdk_files/sdk/inc;config;.".toList ∧
    needsIncludeUpdate (fun _ => true)
      (splitOnChar ';' "../../../sdk/inc;../config;.".toList) = true :=
  ⟨(C7_include_directories_scenario (fun _ => true) rfl).1,
   (C7_include_directories_scenario (fun _ => true) rfl).2.1⟩

theorem includeEmit_ne_nil_mem (isdir : List Char → Bool) (inc : List Char)
    (x : List Char) (hx : x ∈ includeEmit isdir inc) : x ≠ [] := by
  unfold includeEmit at hx
  split at hx
  · simp at hx
  · split at hx
    · simp at hx
    · split at hx
      · split at hx
        · rw [List.mem_singleton] at hx
          subst hx
          simp only [create_target_path]
          split <;> simp [sdkSubdir]
        · rw [List.mem_singleton] at hx
          subst hx
          rename_i hinc _ _ _
          exact hinc
      · split at hx
        · rw [List.mem_singleton] at hx
          subst hx
          decide
        · rw [List.mem_singleton] at hx
          subst hx
          rename_i hinc _ _ _
          exact hinc

/-- C10: empty entries in the semicolon-delimited include list are invisible
to the analysis loop: the rebuilt include list and the
`needs_include_update` flag are the same as for the list with the empty
entries removed (so empty entries are dropped from any rewritten value and
never by themselves cause the attribute to be scheduled for rewriting), and
the rebuilt include list never contains an empty entry. -/
theorem C10_empty_entries_dropped (isdir : List Char → Bool)
    (entries : List (List Char)) :
    newIncludeList isdir entries =
      newIncludeList isdir (entries.filter (fun e => !e.isEmpty)) ∧
    needsIncludeUpdate isdir entries =
      needsIncludeUpdate isdir (entries.filter (fun e => !e.isEmpty)) ∧
    [] ∉ newIncludeList isdir entries := by
  induction entries with
  | nil => exact ⟨rfl, rfl, by simp [newIncludeList]⟩
  | cons e es IH =>
    by_cases he : e = []
    · subst he
      have hemit : includeEmit isdir [] = [] := by unfold includeEmit; simp
      have hflag : includeFlag isdir [] = false := by unfold includeFlag; simp
      refine ⟨?_, ?_, ?_⟩
      · simp only [newIncludeList, hemit, List.nil_append, List.filter_cons,
          List.isEmpty_nil, Bool.not_true]
        exact IH.1
      · simp only [needsIncludeUpdate, hflag, Bool.false_or, List.filter_cons,
          List.isEmpty_nil, Bool.not_true]
        exact IH.2.1
      · simp only [newIncludeList, hemit, List.nil_append]
        exact IH.2.2
    · have hkeep : (!e.isEmpty) = true := by
        cases e with
        | nil => exact absurd rfl he
        | cons a as => rfl
      refine ⟨?_, ?_, ?_⟩
      · simp only [newIncludeList, List.filter_cons, hkeep, if_pos]
        rw [IH.1]
      · simp only [needsIncludeUpdate, List.filter_cons, hkeep, if_pos]
        rw [IH.2.1]
      · simp only [newIncludeList, List.mem_append]
        rintro (hmem | hmem)
        · exact includeEmit_ne_nil_mem isdir e [] hmem rfl
        · exact IH.2.2 hmem

/-! ### The Makefile rewrite passes -/

theorem cflagsAfter_of_match (line : List Char)
    (hm : matchSdkRootLegacy line = true) : cflagsAfter line = [] := by
  have hS : "SDK_ROOT".toList.isPrefixOf line = true := by
    simp only [matchSdkRootLegacy, Bool.and_eq_true] at hm
    exact hm.1
  obtain ⟨t, ht⟩ := List.isPrefixOf_iff_prefix.mp hS
  have hline : line = 'S' :: ("DK_ROOT".toList ++ t) := by
    rw [← ht]
    rfl
  have hne : ¬ ((pyStrip line == targetCflagsLine) = true) := by
    rw [beq_iff_eq]
    intro heq
    have hdw : line.dropWhile pyIsSpace = line := by
      rw [hline, List.dropWhile_cons, if_neg (by decide)]
    have hpfx2 : pyStrip line <+: line := by
      unfold pyStrip
      rw [hdw]
      have hsfx : line.reverse.dropWhile pyIsSpace <:+ line.reverse :=
        List.dropWhile_suffix _
      have h2 := List.reverse_prefix.mpr hsfx
      rwa [List.reverse_reverse] at h2
    rw [heq, hline] at hpfx2
    have htc : targetCflagsLine =
        'C' :: "FLAGS += -fno-builtin -fshort-enums".toList := rfl
    rw [htc, List.cons_prefix_cons] at hpfx2
    exact absurd hpfx2.1 (by decide)
  unfold cflagsAfter
  exact if_neg hne

theorem pass1Go_no_match (pre rest : List (List Char))
    (hpre : ∀ l ∈ pre, matchSdkRootLegacy l = false) :
    pass1Go (pre ++ rest) false false =
      pass1Go pre false false ++ pass1Go rest false false := by
  induction pre with
  | nil => simp [pass1Go]
  | cons l pre' IH =>
    have hl : matchSdkRootLegacy l = false := hpre l (List.mem_cons_self _ _)
    have hpre' : ∀ x ∈ pre', matchSdkRootLegacy x = false :=
      fun x hx => hpre x (List.mem_cons.mpr (Or.inr hx))
    simp only [List.cons_append, pass1Go, hl, Bool.false_and, Bool.or_false]
    rw [show pre'.append rest = pre' ++ rest from rfl, IH hpre']
    simp [List.append_assoc]

theorem pass1Go_after_update :
    ∀ (ls : List (List Char)) (d : Bool), pass1Go ls true d = passthrough ls
  | [], _ => rfl
  | l :: ls, d => by
    simp only [pass1Go, passthrough, Bool.not_true, Bool.and_false,
      Bool.or_false]
    rw [pass1Go_after_update ls d]
    simp

theorem mem_passthrough :
    ∀ (ls : List (List Char)) (l : List Char), l ∈ ls → l ∈ passthrough ls
  | l' :: ls, l, h => by
    simp only [passthrough]
    rcases List.mem_cons.mp h with rfl | h2
    · exact List.mem_cons_self _ _
    · exact List.mem_cons.mpr
        (Or.inr (List.mem_append.mpr (Or.inr (mem_passthrough ls l h2))))

theorem pass1_first_match (pre post : List (List Char)) (line : List Char)
    (hm : matchSdkRootLegacy line = true)
    (hpre : ∀ l ∈ pre, matchSdkRootLegacy l = false) :
    pass1 (pre ++ line :: post) =
      pass1Go pre false false ++
        newProjDirLine :: newSdkRootLine :: pass1Go post true true := by
  have hany : (pre ++ line :: post).any matchSdkRootLegacy = true := by
    rw [List.any_append]
    simp [List.any_cons, hm]
  simp only [pass1]
  rw [if_pos hany]
  rw [pass1Go_no_match pre (line :: post) hpre]
  congr 1
  simp only [pass1Go, hm, Bool.not_false, Bool.and_true, if_true,
    Bool.or_true]
  rw [cflagsAfter_of_match line hm]
  simp

/-- C6: a Makefile whose first legacy-matching line is
`SDK_ROOT := ../../../../../..` has that line replaced by the two lines
`PROJ_DIR := ./` and `SDK_ROOT := $(PROJ_DIR)/sdk_files`, and the cleanup
pass over the rewritten Makefile deletes every line whose stripped text
starts with `PROJ_DIR := ../../..` while keeping the newly inserted
`PROJ_DIR := ./` line. -/
theorem C6_sdk_root_rewrite_and_cleanup (pre post : List (List Char))
    (line : List Char) (hm : matchSdkRootLegacy line = true)
    (hpre : ∀ l ∈ pre, matchSdkRootLegacy l = false) :
    pass1 (pre ++ line :: post) =
      pass1Go pre false false ++
        newProjDirLine :: newSdkRootLine :: pass1Go post true true ∧
    (∀ l ∈ cleanupPass (pass1 (pre ++ line :: post)),
      legacyProjDirB l = false) ∧
    newProjDirLine ∈ cleanupPass (pass1 (pre ++ line :: post)) := by
  have hmain := pass1_first_match pre post line hm hpre
  refine ⟨hmain, ?_, ?_⟩
  · intro l hl
    have h2 := List.mem_filter.mp hl
    simpa using h2.2
  · unfold cleanupPass
    rw [List.mem_filter]
    refine ⟨?_, by decide⟩
    rw [hmain]
    exact List.mem_append.mpr (Or.inr (List.mem_cons_self _ _))

theorem C6_witness :
    matchSdkRootLegacy "SDK_ROOT := ../../../../../..\n".toList = true ∧
    newProjDirLine ∈ cleanupPass (pass1
      ([] ++ "SDK_ROOT := ../../../../../..\n".toList ::
        ["PROJ_DIR := ../../..\n".toList])) ∧
    "PROJ_DIR := ../../..\n".toList ∉ cleanupPass (pass1
      ([] ++ "SDK_ROOT := ../../../../../..\n".toList ::
        ["PROJ_DIR := ../../..\n".toList])) := by
  have h := C6_sdk_root_rewrite_and_cleanup []
    ["PROJ_DIR := ../../..\n".toList]
    "SDK_ROOT := ../../../../../..\n".toList (by decide) (by simp)
  refine ⟨by decide, h.2.2, ?_⟩
  intro hmem
  have h2 := h.2.1 _ hmem
  exact absurd h2 (by decide)

/-- C9: if a Makefile contains several lines matching the legacy SDK root
pattern, only the first one is replaced (with the `PROJ_DIR` definition
inserted exactly once, immediately before the new `SDK_ROOT` definition);
every later line — matching or not — is carried through to the output
verbatim by this transform. -/
theorem C9_only_first_match_replaced (pre post : List (List Char))
    (line : List Char) (hm : matchSdkRootLegacy line = true)
    (hpre : ∀ l ∈ pre, matchSdkRootLegacy l = false) :
    pass1 (pre ++ line :: post) =
      pass1Go pre false false ++
        newProjDirLine :: newSdkRootLine :: passthrough post ∧
    (∀ l ∈ post, l ∈ pass1 (pre ++ line :: post)) := by
  have hmain := pass1_first_match pre post line hm hpre
  rw [pass1Go_after_update post true] at hmain
  refine ⟨hmain, ?_⟩
  intro l hl
  rw [hmain]
  refine List.mem_append.mpr (Or.inr ?_)
  exact List.mem_cons.mpr (Or.inr (List.mem_cons.mpr
    (Or.inr (mem_passthrough post l hl))))

theorem C9_witness :
    matchSdkRootLegacy "SDK_ROOT := ../../../../../..\n".toList = true ∧
    "SDK_ROOT := ../../../../../..\n".toList ∈
      pass1 ([] ++ "SDK_ROOT := ../../../../../..\n".toList ::
        ["SDK_ROOT := ../../../../../..\n".toList]) :=
  ⟨by decide,
   (C9_only_first_match_replaced [] ["SDK_ROOT := ../../../../../..\n".toList]
      "SDK_ROOT := ../../../../../..\n".toList (by decide) (by simp)).2 _
     (List.mem_cons_self _ _)⟩

/-! ### Input error behaviour -/

/-- C8 counterexample: for an input file that exists but is unreadable, the
run does exit with code 1 at the failing read, but the output directory, the
`sdk_files` subdirectory and the `Makefile.common` copy step all happen
before that read — output directory content is created prior to the failing
read, contradicting the claim. -/
theorem C8_counterexample :
    (runScript true false).2 = some 1 ∧
    (runScript true false).1 =
      [FsEffect.mkdirOutput, FsEffect.mkdirSdkFilesSubdir,
       FsEffect.copyMakefileCommon, FsEffect.readProjectFile] ∧
    FsEffect.mkdirOutput ∈ (runScript true false).1 := by
  refine ⟨rfl, rfl, by decide⟩

/-- C8 (amended): whenever the input project file is missing or unreadable
the process exits with the non-zero code 1; in the missing-file case no
effect is performed at all, while in the unreadable case the output
directory skeleton is created before the failing read. -/
theorem C8_exit_nonzero (inputIsFile inputReadable : Bool)
    (h : inputIsFile = false ∨ inputReadable = false) :
    (runScript inputIsFile inputReadable).2 = some 1 ∧
    (inputIsFile = false → (runScript inputIsFile inputReadable).1 = []) := by
  rcases h with h | h
  · subst h
    exact ⟨rfl, fun _ => rfl⟩
  · subst h
    cases inputIsFile
    · exact ⟨rfl, fun _ => rfl⟩
    · exact ⟨rfl, fun hcon => absurd hcon (by decide)⟩

theorem C8_witness :
    (runScript false true).2 = some 1 ∧
    (false = false → (runScript false true).1 = []) :=
  C8_exit_nonzero false true (Or.inl rfl)
